import Mathlib

/-!
Verification development for the openflow_project hybrid SDN controller.

Shallow embedding of the core data model and operations of the repository:
the EWMA forecaster (src/forecast.cpp), the graph capability defaults
(src/models.hpp, src/milp_te.hpp), the traffic monitor's counter
differencing (src/monitor.cpp), the OpenFlow 1.0 wire structures
(src/te_controller.cpp), the switch-id assignment of the session manager
(src/te_controller.cpp), the topology viewer (src/topo_viewer.cpp), the
bounded BFS path enumerator (src/HybridSDNApp.hpp) and the MILP planner's
post-solve logic (src/milp_te.cpp).

C++ `double` is modelled as `ℚ` (exact arithmetic at the modelled
operations), `int` as `Int`, `uint64_t` byte counters as `ℕ`, and
`std::map` as association lists with unique keys (sorted where iteration
order matters).
-/

namespace OpenFlowSpec

/-! ## Forecaster (src/forecast.cpp, Forecast::ewma_next) -/

/-- Embedding of `Forecast::ewma_next`: if the series is empty return 0,
otherwise start from `hist[0]` and fold `s = alpha*hist[i] + (1-alpha)*s`
over the remaining elements in chronological order. -/
def ewma_next (hist : List ℚ) (alpha : ℚ) : ℚ :=
  match hist with
  | [] => 0
  | h :: t => t.foldl (fun s x => alpha * x + (1 - alpha) * s) h

/-! ## Link identity and graph capabilities (src/models.hpp / src/milp_te.hpp) -/

/-- Embedding of `LinkId` (canonical unordered pair of node ids, C++ `int`). -/
structure LinkId where
  u : Int
  v : Int
deriving DecidableEq

/-- Association-list lookup, modelling `std::map::find` (unique keys). -/
def mapFind {α : Type} (m : List (LinkId × α)) (e : LinkId) : Option α :=
  match m with
  | [] => none
  | kv :: rest => if kv.1 = e then some kv.2 else mapFind rest e

/-- Embedding of `GraphCaps` from src/models.hpp (the copy in
src/milp_te.hpp, namespace `te`, is textually identical): three partial
maps over `LinkId`. -/
structure GraphCaps where
  capacity_mbps : List (LinkId × ℚ)
  is_sdn : List (LinkId × Bool)
  power_cost : List (LinkId × ℚ)

/-- Embedding of `GraphCaps::cap`: capacity of a link, 0.0 when absent. -/
def GraphCaps.cap (G : GraphCaps) (e : LinkId) : ℚ :=
  match mapFind G.capacity_mbps e with
  | none => 0
  | some c => c

/-- Embedding of `GraphCaps::sdn`: true iff the link has an `is_sdn` entry
that is true. -/
def GraphCaps.sdn (G : GraphCaps) (e : LinkId) : Bool :=
  match mapFind G.is_sdn e with
  | none => false
  | some b => b

/-- Embedding of `GraphCaps::power`: the stored power cost when present;
otherwise `cap(e) * 0.1` if `cap(e) > 0`, and 1.0 if not. -/
def GraphCaps.power (G : GraphCaps) (e : LinkId) : ℚ :=
  match mapFind G.power_cost e with
  | some p => p
  | none =>
      let c := G.cap e
      if 0 < c then c * (1 / 10) else 1

/-! ## Capacity callback of the application (src/HybridSDNApp.hpp, cap_lookup_) -/

/-- Embedding of `HybridSDNApp::cap_lookup_`: look the link up in the
loaded runtime graph's capacity map; return 1000.0 Mbps when absent. -/
def cap_lookup (cap_mbps : List (LinkId × ℚ)) (e : LinkId) : ℚ :=
  match mapFind cap_mbps e with
  | none => 1000
  | some c => c

/-! ## Monitor counter differencing (src/monitor.cpp) -/

/-- Embedding of `Monitor::PortStats` input fields used by the rate
computation (`uint64_t` byte counters). -/
structure PortStatsIn where
  rx_bytes : ℕ
  tx_bytes : ℕ
deriving DecidableEq

/-- Embedding of the per-link `last_counters_` record (a valid previous
observation; absence of an observation is modelled as `Option`). -/
structure LastCounter where
  rx_bytes : ℕ
  tx_bytes : ℕ
  t : ℚ
deriving DecidableEq

/-- Embedding of the per-link `LinkRate` result. -/
structure LinkRate where
  rx_mbps : ℚ
  tx_mbps : ℚ
  util : ℚ
deriving DecidableEq

/-- Embedding of `Monitor::mbps_from_bytes_delta`:
`8 * bytes / dt / 1e6`, 0 when `dt <= 0`. -/
def mbps_from_bytes_delta (dbytes : ℤ) (dt : ℚ) : ℚ :=
  if dt ≤ 0 then 0 else 8 * (dbytes : ℚ) / dt / 1000000

/-- Embedding of the `drx` computation of
`Monitor::compute_rates_and_update`: saturating difference of the rx byte
counters, as an integer (the C++ guard makes the `uint64_t` subtraction
well defined). -/
def drx_delta (last : LastCounter) (ps : PortStatsIn) : ℤ :=
  if last.rx_bytes ≤ ps.rx_bytes then (ps.rx_bytes : ℤ) - (last.rx_bytes : ℤ) else 0

/-- Embedding of the `dtx` computation of
`Monitor::compute_rates_and_update` (tx direction). -/
def dtx_delta (last : LastCounter) (ps : PortStatsIn) : ℤ :=
  if last.tx_bytes ≤ ps.tx_bytes then (ps.tx_bytes : ℤ) - (last.tx_bytes : ℤ) else 0

/-- Embedding of the body of the per-link loop of
`Monitor::compute_rates_and_update` for one link: previous observation
(`none` when `last.valid` is false), current time, reported counters and
the capacity returned by the callback; produces the `LinkRate` that is
stored and appended, together with the updated last-counter record. -/
def compute_rate_step (last : Option LastCounter) (tnow : ℚ) (ps : PortStatsIn)
    (cap : ℚ) : LinkRate × LastCounter :=
  let dt : ℚ := match last with
    | none => 0
    | some l => tnow - l.t
  let drx : ℤ := match last with
    | none => 0
    | some l => drx_delta l ps
  let dtx : ℤ := match last with
    | none => 0
    | some l => dtx_delta l ps
  let newlast : LastCounter := { rx_bytes := ps.rx_bytes, tx_bytes := ps.tx_bytes, t := tnow }
  let rx_mbps : ℚ := if 0 < dt then mbps_from_bytes_delta drx dt else 0
  let tx_mbps : ℚ := if 0 < dt then mbps_from_bytes_delta dtx dt else 0
  let util : ℚ := if 0 < cap then min 1 (max 0 ((rx_mbps + tx_mbps) / cap)) else 0
  ({ rx_mbps := rx_mbps, tx_mbps := tx_mbps, util := util }, newlast)

end OpenFlowSpec

namespace OpenFlowSpec

/-! ## OpenFlow 1.0 wire structures (src/te_controller.cpp) -/

/-- Field layout of the `ofp_match` struct of src/te_controller.cpp in
declaration order, each with its size in bytes (the file compiles it under
`#pragma pack(push,1)`, so the struct size is the sum of the field sizes). -/
def ofp_match_fields : List (String × ℕ) :=
  [("wildcards", 4), ("in_port", 2), ("dl_src", 6), ("dl_dst", 6),
   ("dl_vlan", 2), ("dl_vlan_pcp", 1), ("pad1", 1), ("dl_type", 2),
   ("nw_tos", 1), ("nw_proto", 1), ("nw_src", 4), ("nw_dst", 4),
   ("tp_src", 2), ("tp_dst", 2)]

/-- Size in bytes of the packed `ofp_match` struct of the source. -/
def ofp_match_sizeof : ℕ :=
  (ofp_match_fields.map (fun f => f.2)).sum

/-- Wildcard bitmap constants of the `OFPFW_*` enum of
src/te_controller.cpp. -/
def OFPFW_IN_PORT : ℕ := 1 <<< 0
/-- Source value of `OFPFW_DL_VLAN`. -/
def OFPFW_DL_VLAN : ℕ := 1 <<< 1
/-- Source value of `OFPFW_DL_SRC`. -/
def OFPFW_DL_SRC : ℕ := 1 <<< 2
/-- Source value of `OFPFW_DL_DST`. -/
def OFPFW_DL_DST : ℕ := 1 <<< 3
/-- Source value of `OFPFW_DL_TYPE`. -/
def OFPFW_DL_TYPE : ℕ := 1 <<< 4
/-- Source value of `OFPFW_NW_TOS`. -/
def OFPFW_NW_TOS : ℕ := 1 <<< 5
/-- Source value of `OFPFW_NW_PROTO`. -/
def OFPFW_NW_PROTO : ℕ := 1 <<< 6
/-- Source value of `OFPFW_TP_SRC`. -/
def OFPFW_TP_SRC : ℕ := 1 <<< 7
/-- Source value of `OFPFW_TP_DST`. -/
def OFPFW_TP_DST : ℕ := 1 <<< 8
/-- Source value of `OFPFW_DL_VLAN_PCP`. -/
def OFPFW_DL_VLAN_PCP : ℕ := 1 <<< 20

/-- Modelled from the spec: the canonical OpenFlow 1.0 `ofp_match` is 40
bytes (it carries a 2-byte pad after `nw_proto`, which the source struct
does not have). -/
def canonical_ofp_match_sizeof : ℕ := 40

/-- Modelled from the spec: canonical OpenFlow 1.0 wildcard bit values
for the ten fields named by the spec, keyed by field name.
Canonical positions: IN_PORT=0, DL_VLAN=1, DL_SRC=2, DL_DST=3, DL_TYPE=4,
NW_PROTO=5, TP_SRC=6, TP_DST=7, DL_VLAN_PCP=20, NW_TOS=21. -/
def canonical_wildcard (field : String) : ℕ :=
  if field = "IN_PORT" then 1 <<< 0
  else if field = "DL_VLAN" then 1 <<< 1
  else if field = "DL_SRC" then 1 <<< 2
  else if field = "DL_DST" then 1 <<< 3
  else if field = "DL_TYPE" then 1 <<< 4
  else if field = "NW_PROTO" then 1 <<< 5
  else if field = "TP_SRC" then 1 <<< 6
  else if field = "TP_DST" then 1 <<< 7
  else if field = "DL_VLAN_PCP" then 1 <<< 20
  else if field = "NW_TOS" then 1 <<< 21
  else 0

/-! ## Session-manager switch-id assignment (src/te_controller.cpp, on_features_reply) -/

/-- Sorted-insert into the `swid -> fd` map (`std::map` assignment
`sw_index_to_fd[k] = fd`; the representation keeps keys sorted). -/
def mapInsertNat : List (ℕ × ℤ) → ℕ → ℤ → List (ℕ × ℤ)
  | [], k, v => [(k, v)]
  | kv :: rest, k, v =>
      if k < kv.1 then (k, v) :: kv :: rest
      else if k = kv.1 then (k, v) :: rest
      else kv :: mapInsertNat rest k v

/-- Key of the last entry of the sorted map, modelling
`sw_index_to_fd.rbegin()->first` (0 on the empty map, unused there). -/
def rbegin_key : List (ℕ × ℤ) → ℕ
  | [] => 0
  | [kv] => kv.1
  | _ :: rest => rbegin_key rest

/-- Embedding of the index-assignment block of
`OFControllerImpl::on_features_reply`: on an empty map the connection gets
index 1; otherwise, unless this fd already has an index, it gets
`maxIdx + 1` where `maxIdx` is the largest index currently in the map. -/
def on_features_assign (m : List (ℕ × ℤ)) (fd : ℤ) : List (ℕ × ℤ) :=
  if m.isEmpty then mapInsertNat m 1 fd
  else
    let maxIdx := rbegin_key m
    if m.any (fun kv => decide (kv.2 = fd)) then m
    else mapInsertNat m (maxIdx + 1) fd

/-- Modelled from the spec: the smallest positive integer not currently
in use as a SwitchId (what the spec says `on_features_reply` assigns). -/
def smallest_unused_swid (keys : List ℕ) : ℕ :=
  ((((List.range (keys.length + 1)).map (· + 1)).find?
      (fun k => decide (k ∉ keys)))).getD 0

/-! ## Topology viewer (src/topo_viewer.cpp) -/

/-- Embedding of `TopoViewer::EdgeKey` (canonical undirected edge with the
two port numbers). -/
structure EdgeKey where
  u : Int
  v : Int
  u_port : Int
  v_port : Int
deriving DecidableEq

/-- Embedding of the `TopoViewer::Edge` snapshot item. -/
structure TopoEdge where
  u : Int
  v : Int
  u_port : Int
  v_port : Int
  last_seen : ℚ
deriving DecidableEq

/-- Embedding of the `LLDPEvent` fields the viewer consumes. -/
structure LLDPEvent where
  src_swid : Int
  dst_swid : Int
  src_port : Int
  dst_port : Int

/-- Map assignment `edges_[k] = now` (update or insert; the association
list represents the `std::map` up to key order, which no modelled
operation observes). -/
def edgesInsert : List (EdgeKey × ℚ) → EdgeKey → ℚ → List (EdgeKey × ℚ)
  | [], k, t => [(k, t)]
  | kv :: rest, k, t => if kv.1 = k then (k, t) :: rest else kv :: edgesInsert rest k t

/-- Default `expiry` of the `TopoViewer` constructor: 10 seconds. -/
def default_expiry : ℚ := 10

/-- Embedding of `TopoViewer::prune_expired`: erase every entry with
`now - last_seen > expiry`, keep the rest. -/
def prune_expired (now expiry : ℚ) (edges : List (EdgeKey × ℚ)) : List (EdgeKey × ℚ) :=
  edges.filter (fun kv => decide (¬ expiry < now - kv.2))

/-- Embedding of `TopoViewer::handle_lldp`: map both switch ids to node
ids, drop self-loops, canonicalize so that `u < v` (swapping the ports
with the endpoints), and refresh the edge's `last_seen` to now. -/
def handle_lldp (swid_to_node : Int → Int) (e : LLDPEvent) (now : ℚ)
    (edges : List (EdgeKey × ℚ)) : List (EdgeKey × ℚ) :=
  let nu := swid_to_node e.src_swid
  let nv := swid_to_node e.dst_swid
  if nu = nv then edges
  else
    let k : EdgeKey :=
      if nu < nv then ⟨nu, nv, e.src_port, e.dst_port⟩
      else ⟨nv, nu, e.dst_port, e.src_port⟩
    edgesInsert edges k now

/-- Embedding of `TopoViewer::snapshot_edges`: every stored entry, with
its `last_seen`, without any filtering. -/
def snapshot_edges (edges : List (EdgeKey × ℚ)) : List TopoEdge :=
  edges.map (fun kv => ⟨kv.1.u, kv.1.v, kv.1.u_port, kv.1.v_port, kv.2⟩)

/-! ## MILP planner post-solve logic (src/milp_te.cpp, MILP_TE::solve) -/

/-- Embedding of `te::Path`. -/
structure TePath where
  id : Int
  edges : List LinkId
deriving DecidableEq

/-- Embedding of `te::Flow`. -/
structure TeFlow where
  id : Int
  s : Int
  d : Int
  demand_mbps : ℚ
  cand_path_ids : List Int
deriving DecidableEq

/-- Embedding of `te::TE_Output`. -/
structure TE_Output where
  chosen_path : List (Int × Int)
  beta : List (LinkId × Int)
  load_mbps : List (LinkId × ℚ)
  objective : ℚ
  optimal : Bool
  status_text : String
deriving DecidableEq

/-- A default-constructed `TE_Output`, as a caller passes it to `solve`. -/
def emptyOut : TE_Output := ⟨[], [], [], 0, false, ""⟩

/-- Outcome of `CbcModel` after `branchAndBound`, the external solver
contract `solve` consumes: `status()`, `isProvenOptimal()`,
`isProvenInfeasible()`, `getObjValue()` and `bestSolution()` (`none` when
the solver returns no primal solution). -/
structure SolverResult where
  status : Int
  provenOptimal : Bool
  provenInfeasible : Bool
  objValue : ℚ
  bestSolution : Option (List ℚ)

/-- Embedding of `MILP_TE::build_variable_index_` for the `x` block: one
column per (flow, candidate path) in flow-map order. -/
def x_index (F : List TeFlow) : List (Int × Int) :=
  F.flatMap (fun f => f.cand_path_ids.map (fun pid => (f.id, pid)))

/-- Column of `x_{f,p}` (`x_col_.at`): position in the `x` block. -/
def x_col (F : List TeFlow) (fp : Int × Int) : ℕ :=
  (x_index F).findIdx (fun y => decide (y = fp))

/-- Embedding of the `β` block of `build_variable_index_`: one column per
SDN link, in `links_` order, after all `x` columns. -/
def be_index (G : GraphCaps) (links : List LinkId) : List LinkId :=
  links.filter (fun e => G.sdn e)

/-- Column of `β_e` (`be_col_.at`). -/
def be_col (F : List TeFlow) (G : GraphCaps) (links : List LinkId) (e : LinkId) : ℕ :=
  (x_index F).length + (be_index G links).findIdx (fun y => decide (y = e))

/-- Read one entry of the primal solution array (`sol[i]`). -/
def solAt (sol : List ℚ) (i : ℕ) : ℚ := sol.getD i 0

/-- Edges of the path with a given id (`P_.at(pid).edges`; the id is
assumed present, as in the source). -/
def pathEdges (P : List TePath) (pid : Int) : List LinkId :=
  match P.find? (fun p => decide (p.id = pid)) with
  | none => []
  | some p => p.edges

/-- Map accumulation `out->load_mbps[e] += v` (`std::map::operator[]`
inserts a zero entry when absent). -/
def loadAdd : List (LinkId × ℚ) → LinkId → ℚ → List (LinkId × ℚ)
  | [], e, v => [(e, v)]
  | kv :: rest, e, v =>
      if kv.1 = e then (kv.1, kv.2 + v) :: rest else kv :: loadAdd rest e v

/-- Embedding of the tail of `MILP_TE::solve` after `branchAndBound`
(lines setting `optimal`, `objective` and `status_text`, the early
`return false` when `bestSolution()` is null, and otherwise the filling
of `beta`, `chosen_path` and `load_mbps`). Returns the C++ return value
paired with the final state of `*out`, whose initial state is `out0`. -/
def solve_post (G : GraphCaps) (P : List TePath) (F : List TeFlow)
    (links : List LinkId) (res : SolverResult) (out0 : TE_Output) :
    Bool × TE_Output :=
  let opt : Bool := (res.status == 0) || res.provenOptimal
  let st : String :=
    if opt then "optimal"
    else if res.provenInfeasible then "infeasible" else "feasible"
  let out1 : TE_Output :=
    { out0 with optimal := opt, objective := res.objValue, status_text := st }
  match res.bestSolution with
  | none => (false, out1)
  | some sol =>
      let beta : List (LinkId × Int) := links.map (fun e =>
        if G.sdn e then
          (e, if (1 / 2 : ℚ) ≤ solAt sol (be_col F G links e) then 1 else 0)
        else (e, 1))
      let chosen : List (Int × Int) := F.map (fun f =>
        let best := f.cand_path_ids.foldl
          (fun (acc : Int × ℚ) pid =>
            let val := solAt sol (x_col F (f.id, pid))
            if acc.2 < val then (pid, val) else acc)
          (-1, -1)
        (f.id, best.1))
      let load : List (LinkId × ℚ) := F.foldl (fun ld f =>
          let Df := max 0 f.demand_mbps
          f.cand_path_ids.foldl (fun ld pid =>
            let x := solAt sol (x_col F (f.id, pid))
            if x ≤ 1 / 1000000000 then ld
            else (pathEdges P pid).foldl (fun ld e => loadAdd ld e (Df * x)) ld) ld)
        (links.map (fun e => (e, (0 : ℚ))))
      (true, { out1 with beta := beta, chosen_path := chosen, load_mbps := load })

/-! ## Path enumerator (src/HybridSDNApp.hpp, bfs_k_paths_ / build_paths_) -/

/-- Adjacency map, `std::map<int, std::vector<int>>`. -/
abbrev Adj := List (Int × List Int)

/-- `adj.find(n)` on the adjacency map. -/
def adjFind : Adj → Int → Option (List Int)
  | [], _ => none
  | kv :: rest, n => if kv.1 = n then some kv.2 else adjFind rest n

/-- `adj[n].push_back(v)`: `operator[]` inserts an empty vector when the
node is absent, then the neighbour is appended. -/
def adjPush : Adj → Int → Int → Adj
  | [], n, v => [(n, [v])]
  | kv :: rest, n, v =>
      if kv.1 = n then (kv.1, kv.2 ++ [v]) :: rest else kv :: adjPush rest n v

/-- Embedding of `HybridSDNApp::mk_edge_`: canonical link id, smaller
node first. -/
def mk_edge (a b : Int) : LinkId := if b < a then ⟨b, a⟩ else ⟨a, b⟩

/-- Edge sequence emitted for a node sequence: one canonical
`{min, max}` link per consecutive node pair, exactly as the emission loop
of `bfs_k_paths_` builds it. -/
def seqEdges (seq : List Int) : List LinkId :=
  (seq.zip seq.tail).map (fun ab => ⟨min ab.1 ab.2, max ab.1 ab.2⟩)

/-- A BFS queue entry of `bfs_k_paths_`: `(current node, node sequence)`. -/
structure BfsEntry where
  node : Int
  seq : List Int
deriving DecidableEq

/-- The mutable state threaded through `bfs_k_paths_`: the shared output
path vector, the shared next path id, and the per-call `seen` set of
already-emitted node sequences. -/
structure BfsSt where
  out_paths : List TePath
  next_pid : Int
  seen : List (List Int)
deriving DecidableEq

/-- One iteration of the while loop of `bfs_k_paths_` for the queue entry
`cur`, accumulating the entries pushed for the next BFS level. The first
guard is the loop condition `(int)out_paths.size() < K`: once the global
count has reached `K` the C++ loop exits and the remaining queued entries
are never processed, which is the same as processing them with no
effect. -/
def bfs_step (adj : Adj) (d : Int) (K : Int) (acc : BfsSt × List BfsEntry)
    (cur : BfsEntry) : BfsSt × List BfsEntry :=
  let st := acc.1
  let nxt := acc.2
  if K ≤ (st.out_paths.length : Int) then (st, nxt)
  else if 10 < cur.seq.length then (st, nxt)
  else if cur.node = d then
    if cur.seq ∈ st.seen then (st, nxt)
    else ({ out_paths := st.out_paths ++ [⟨st.next_pid, seqEdges cur.seq⟩],
            next_pid := st.next_pid + 1,
            seen := cur.seq :: st.seen }, nxt)
  else
    match adjFind adj cur.node with
    | none => (st, nxt)
    | some nbs =>
        (st, nxt ++ nbs.filterMap (fun nb =>
          if nb ∈ cur.seq then none else some ⟨nb, cur.seq ++ [nb]⟩))

/-- Process one full BFS level in FIFO order (the C++ queue always holds
the remainder of one level followed by the next level, because each entry
only pushes entries one longer than itself). -/
def bfs_level (adj : Adj) (d : Int) (K : Int) (level : List BfsEntry)
    (st : BfsSt) : BfsSt × List BfsEntry :=
  level.foldl (bfs_step adj d K) (st, [])

/-- Run the BFS level by level. Every entry of level `l` carries a node
sequence of length `l`, and entries of length over 10 are discarded
without successors, so starting from the singleton level `[(s, [s])]` the
twelfth level is always empty and 12 rounds compute the fixpoint of the
C++ while loop (`bfs_run_fuel_irrelevant` below proves the fuel bound). -/
def bfs_run (adj : Adj) (d : Int) (K : Int) :
    ℕ → List BfsEntry → BfsSt → BfsSt
  | 0, _, st => st
  | fuel + 1, level, st =>
      let r := bfs_level adj d K level st
      bfs_run adj d K fuel r.2 r.1

/-- Embedding of `HybridSDNApp::bfs_k_paths_`: BFS from `s` with the
shared accumulator `out0` and shared next path id `pid0`; returns the
grown path vector and the advanced id counter. -/
def bfs_k_paths (adj : Adj) (s d : Int) (K : Int) (out0 : List TePath)
    (pid0 : Int) : List TePath × Int :=
  let st := bfs_run adj d K 12 [⟨s, [s]⟩] ⟨out0, pid0, []⟩
  (st.out_paths, st.next_pid)

/-- Adjacency built by `build_paths_` from the alive edge list (only the
`u`/`v` fields of `TopoViewer::Edge` are read). -/
def build_adj (alive : List (Int × Int)) : Adj :=
  alive.foldl (fun adj e => adjPush (adjPush adj e.1 e.2) e.2 e.1) []

/-- Sorted-dedup insert into the `std::set<std::pair<int,int>>` of
required endpoint pairs (lexicographic order). -/
def pairInsert : List (Int × Int) → Int × Int → List (Int × Int)
  | [], p => [p]
  | q :: rest, p =>
      if p.1 < q.1 ∨ (p.1 = q.1 ∧ p.2 < q.2) then p :: q :: rest
      else if p = q then q :: rest
      else q :: pairInsert rest p

/-- The `(s, d)` pairs (normalised `s <= d`) required by the flows, in
`std::set` iteration order. -/
def need_pairs (flows : List TeFlow) : List (Int × Int) :=
  flows.foldl
    (fun st f => pairInsert st (if f.d < f.s then (f.d, f.s) else (f.s, f.d))) []

/-- Embedding of `HybridSDNApp::build_paths_`: run `bfs_k_paths_` for each
required pair in order, threading the shared path vector and the shared
path-id counter that starts at 100. -/
def build_paths (alive : List (Int × Int)) (flows : List TeFlow) (K : Int) :
    List TePath :=
  let adj := build_adj alive
  ((need_pairs flows).foldl
    (fun acc sd => bfs_k_paths adj sd.1 sd.2 K acc.1 acc.2)
    (([] : List TePath), (100 : Int))).1

/-! ## Invariants used to reason about the BFS enumerator -/

/-- The list of `n` consecutive integer ids starting at `pid0`. -/
def idsFrom (pid0 : Int) (n : ℕ) : List Int :=
  (List.range n).map (fun i : ℕ => pid0 + (i : Int))

/-- Invariant of a queue entry at BFS level `l`: the node sequence has
length `l` and repeats no node. -/
def entryInv (l : ℕ) (e : BfsEntry) : Prop :=
  e.seq.length = l ∧ e.seq.Nodup

/-- Invariant of the BFS state while processing level `l`, relative to the
accumulator `acc` and starting path id `pid0` of the enclosing
`bfs_k_paths_` call: the output is `acc` plus the emitted paths, whose
total count is bounded by `max |acc| K`, whose ids are consecutive from
`pid0`, each of which arises from a duplicate-free node sequence, and
whose hop counts are nondecreasing and below the current level. -/
def stInv (acc : List TePath) (pid0 K : Int) (l : ℕ) (st : BfsSt) : Prop :=
  ∃ em : List TePath,
    st.out_paths = acc ++ em ∧
    ((st.out_paths.length : Int) ≤ max (acc.length : Int) K) ∧
    st.next_pid = pid0 + em.length ∧
    em.map (fun p => p.id) = idsFrom pid0 em.length ∧
    (∀ p ∈ em, ∃ sq : List Int, sq.Nodup ∧ p.edges = seqEdges sq) ∧
    ((em.map (fun p => p.edges.length)).Sorted (· ≤ ·)) ∧
    (∀ n ∈ em.map (fun p => p.edges.length), n + 1 ≤ l)

end OpenFlowSpec

namespace OpenFlowSpec

/-! ## Theorems: forecaster (claim C7) -/

/-- C7: `ewma_next` returns 0 on the empty series, the sole element on a
one-element series, and satisfies the EWMA recurrence
`ewma_next (h ++ [x]) = alpha*x + (1-alpha)*ewma_next h` for nonempty `h`,
which is exactly the chronological recurrence of the spec with the initial
state `h[0]`. -/
theorem ewma_next_spec (alpha : ℚ) :
    ewma_next [] alpha = 0 ∧
    (∀ a : ℚ, ewma_next [a] alpha = a) ∧
    (∀ (h : List ℚ) (x : ℚ), h ≠ [] →
      ewma_next (h ++ [x]) alpha = alpha * x + (1 - alpha) * ewma_next h alpha) := by
  refine ⟨rfl, fun a => rfl, ?_⟩
  intro h x hne
  match h with
  | [] => exact absurd rfl hne
  | a :: t =>
      simp [ewma_next, List.foldl_append]

/-- Witness for `ewma_next_spec` at the concrete series `[2, 3]`. -/
theorem ewma_next_spec_witness :
    ewma_next ([2] ++ [3]) (1/2) = (1/2) * 3 + (1 - 1/2) * ewma_next [2] (1/2) :=
  (ewma_next_spec (1/2)).2.2 [2] 3 (by decide)

/-! ## Theorems: power-cost default (claim C8) -/

/-- Counterexample for C8: for a link absent from both `power_cost` and
`capacity_mbps`, `GraphCaps::power` returns 1.0, not
`capacity(e) * 0.1 = 0`. -/
theorem power_default_counterexample :
    GraphCaps.power ⟨[], [], []⟩ ⟨1, 2⟩ = 1 ∧
    GraphCaps.cap ⟨[], [], []⟩ ⟨1, 2⟩ * (1 / 10) = 0 ∧
    (1 : ℚ) ≠ 0 := by
  refine ⟨rfl, by norm_num [GraphCaps.cap, mapFind], by norm_num⟩

/-- C8 (amended): for every link with no `power_cost` entry whose
capacity is positive, the effective power cost is `capacity(e) * 0.1`;
when the capacity is not positive the default is 1.0 instead. -/
theorem power_default_spec (G : GraphCaps) (e : LinkId)
    (hmiss : mapFind G.power_cost e = none) :
    (0 < G.cap e → G.power e = G.cap e * (1 / 10)) ∧
    (¬ 0 < G.cap e → G.power e = 1) := by
  constructor <;> intro hc <;> simp [GraphCaps.power, hmiss, hc]

/-- Witness for `power_default_spec` on a one-link graph of capacity
1000 Mbps with no power-cost entry. -/
theorem power_default_spec_witness :
    GraphCaps.power ⟨[(⟨1, 2⟩, 1000)], [], []⟩ ⟨1, 2⟩ =
      GraphCaps.cap ⟨[(⟨1, 2⟩, 1000)], [], []⟩ ⟨1, 2⟩ * (1 / 10) :=
  (power_default_spec ⟨[(⟨1, 2⟩, 1000)], [], []⟩ ⟨1, 2⟩ rfl).1 (by norm_num [GraphCaps.cap, mapFind])

/-! ## Theorems: application capacity callback (claim C10) -/

/-- C10: the application's capacity callback returns 1000.0 Mbps for every
link absent from the loaded graph's capacity map. -/
theorem cap_lookup_default (cap_mbps : List (LinkId × ℚ)) (e : LinkId)
    (hmiss : mapFind cap_mbps e = none) :
    cap_lookup cap_mbps e = 1000 := by
  simp [cap_lookup, hmiss]

/-- Witness for `cap_lookup_default` on the empty capacity map. -/
theorem cap_lookup_default_witness :
    cap_lookup [] ⟨1, 2⟩ = 1000 :=
  cap_lookup_default [] ⟨1, 2⟩ rfl

/-! ## Theorems: monitor deltas (claims C3 and C9) -/

/-- C3: the monitor's byte deltas are never negative, and when a counter
resets to a smaller value the corresponding delta is zero, so the next
reported rate in that direction is 0. -/
theorem monitor_deltas_nonneg (l : LastCounter) (ps : PortStatsIn) :
    0 ≤ drx_delta l ps ∧ 0 ≤ dtx_delta l ps ∧
    (ps.rx_bytes < l.rx_bytes →
      drx_delta l ps = 0 ∧
      ∀ (tnow cap : ℚ), (compute_rate_step (some l) tnow ps cap).1.rx_mbps = 0) ∧
    (ps.tx_bytes < l.tx_bytes →
      dtx_delta l ps = 0 ∧
      ∀ (tnow cap : ℚ), (compute_rate_step (some l) tnow ps cap).1.tx_mbps = 0) := by
  have hrx : 0 ≤ drx_delta l ps := by
    unfold drx_delta
    split
    · omega
    · omega
  have htx : 0 ≤ dtx_delta l ps := by
    unfold dtx_delta
    split
    · omega
    · omega
  refine ⟨hrx, htx, ?_, ?_⟩
  · intro hreset
    have hz : drx_delta l ps = 0 := by
      unfold drx_delta
      split
      · omega
      · rfl
    refine ⟨hz, ?_⟩
    intro tnow cap
    simp only [compute_rate_step, hz]
    split
    · simp [mbps_from_bytes_delta]
    · rfl
  · intro hreset
    have hz : dtx_delta l ps = 0 := by
      unfold dtx_delta
      split
      · omega
      · rfl
    refine ⟨hz, ?_⟩
    intro tnow cap
    simp only [compute_rate_step, hz]
    split
    · simp [mbps_from_bytes_delta]
    · rfl

/-- Witness for `monitor_deltas_nonneg` at a simulated counter reset
(rx 100 → 40, tx 200 → 50, observed 1 s apart). -/
theorem monitor_deltas_nonneg_witness :
    drx_delta ⟨100, 200, 0⟩ ⟨40, 50⟩ = 0 ∧
    (compute_rate_step (some ⟨100, 200, 0⟩) 1 ⟨40, 50⟩ 1000).1.rx_mbps = 0 := by
  have h := monitor_deltas_nonneg ⟨100, 200, 0⟩ ⟨40, 50⟩
  exact ⟨(h.2.2.1 (by decide)).1, (h.2.2.1 (by decide)).2 1 1000⟩

/-- C9: on the first observation of a link (no valid previous counters),
the produced sample is all zeros (rx, tx and utilization), regardless of
the reported absolute counters and of the capacity. -/
theorem monitor_first_observation_zero (tnow : ℚ) (ps : PortStatsIn) (cap : ℚ) :
    (compute_rate_step none tnow ps cap).1 = ⟨0, 0, 0⟩ := by
  simp only [compute_rate_step]
  norm_num

/-! ## Theorems: OpenFlow 1.0 match layout (claim C5) -/

/-- C5 is violated by the source: the packed `ofp_match` struct is 38
bytes, not the canonical 40 (the canonical 2-byte pad after `nw_proto` is
missing), and while the wildcard bits for IN_PORT, DL_VLAN, DL_SRC,
DL_DST, DL_TYPE and DL_VLAN_PCP agree with the canonical OF1.0 positions,
the bits for NW_TOS, NW_PROTO, TP_SRC and TP_DST sit at positions
5, 6, 7, 8 instead of the canonical 21, 5, 6, 7. -/
theorem ofp_match_layout_bug :
    ofp_match_sizeof = 38 ∧
    ofp_match_sizeof ≠ canonical_ofp_match_sizeof ∧
    OFPFW_IN_PORT = canonical_wildcard "IN_PORT" ∧
    OFPFW_DL_VLAN = canonical_wildcard "DL_VLAN" ∧
    OFPFW_DL_SRC = canonical_wildcard "DL_SRC" ∧
    OFPFW_DL_DST = canonical_wildcard "DL_DST" ∧
    OFPFW_DL_TYPE = canonical_wildcard "DL_TYPE" ∧
    OFPFW_DL_VLAN_PCP = canonical_wildcard "DL_VLAN_PCP" ∧
    OFPFW_NW_TOS ≠ canonical_wildcard "NW_TOS" ∧
    OFPFW_NW_PROTO ≠ canonical_wildcard "NW_PROTO" ∧
    OFPFW_TP_SRC ≠ canonical_wildcard "TP_SRC" ∧
    OFPFW_TP_DST ≠ canonical_wildcard "TP_DST" := by
  decide

/-! ## Theorems: switch-id assignment (claim C4) -/

/-- Counterexample for C4: with only SwitchId 2 in use (switch 1 having
disconnected), the smallest unused positive id is 1, but the code assigns
the new connection id 3 (largest in use plus one). -/
theorem swid_assignment_counterexample :
    on_features_assign [(2, 10)] 11 = [(2, 10), (3, 11)] ∧
    smallest_unused_swid [2] = 1 ∧
    (3 : ℕ) ≠ 1 := by
  refine ⟨rfl, rfl, by decide⟩

/-- Every insert `mapInsertNat m k v` contains the binding `(k, v)`. -/
theorem mem_mapInsertNat (m : List (ℕ × ℤ)) (k : ℕ) (v : ℤ) :
    (k, v) ∈ mapInsertNat m k v := by
  induction m with
  | nil => simp [mapInsertNat]
  | cons a rest ih =>
      simp only [mapInsertNat]
      split
      · exact List.mem_cons_self _ _
      · split
        · exact List.mem_cons_self _ _
        · exact List.mem_cons_of_mem _ ih

/-- In a strictly sorted map every key is at most the `rbegin` key. -/
theorem le_rbegin_key (m : List (ℕ × ℤ)) (hs : (m.map (fun kv => kv.1)).Sorted (· < ·)) :
    ∀ kv ∈ m, kv.1 ≤ rbegin_key m := by
  induction m with
  | nil => simp
  | cons a rest ih =>
      intro kv hmem
      rw [List.mem_cons] at hmem
      cases rest with
      | nil =>
          rcases hmem with rfl | hmem
          · exact le_refl _
          · simp at hmem
      | cons b rs =>
          rw [List.map_cons, List.sorted_cons] at hs
          have hrec : ∀ kv' ∈ b :: rs, kv'.1 ≤ rbegin_key (b :: rs) := ih hs.2
          have heq : rbegin_key (a :: b :: rs) = rbegin_key (b :: rs) := rfl
          rcases hmem with rfl | hmem
          · have hab : kv.1 < b.1 := hs.1 b.1 (by simp)
            have hb := hrec b (by simp)
            omega
          · have := hrec kv hmem
            omega

/-- C4 (amended): `on_features_reply` assigns SwitchId 1 when no id is in
use and otherwise one more than the largest id currently in use (for a
connection that does not already hold an id); in particular the assigned
id is fresh and strictly larger than every id in use, so the id of a
disconnected switch is only ever reused after all switches have
disconnected. -/
theorem swid_assignment_spec (m : List (ℕ × ℤ)) (fd : ℤ)
    (hsorted : (m.map (fun kv => kv.1)).Sorted (· < ·))
    (hfresh : ∀ kv ∈ m, kv.2 ≠ fd) :
    ∃ k : ℕ,
      (k, fd) ∈ on_features_assign m fd ∧
      (∀ j ∈ m.map (fun kv => kv.1), j < k) ∧
      k ∉ m.map (fun kv => kv.1) ∧
      (m = [] → k = 1) ∧
      (m ≠ [] → k = rbegin_key m + 1) := by
  cases m with
  | nil =>
      refine ⟨1, ?_, by simp, by simp, fun _ => rfl, fun h => absurd rfl h⟩
      simp [on_features_assign, mapInsertNat]
  | cons a rest =>
      have hany : ((a :: rest).any (fun kv => decide (kv.2 = fd))) = false := by
        simp only [List.any_eq_false, decide_eq_true_eq]
        intro kv hkv
        exact hfresh kv hkv
      have hlt : ∀ j ∈ (a :: rest).map (fun kv => kv.1), j < rbegin_key (a :: rest) + 1 := by
        intro j hj
        simp only [List.mem_map] at hj
        obtain ⟨kv, hkv, rfl⟩ := hj
        have := le_rbegin_key (a :: rest) hsorted kv hkv
        omega
      refine ⟨rbegin_key (a :: rest) + 1, ?_, hlt, ?_, by simp, fun _ => rfl⟩
      · simp only [on_features_assign, List.isEmpty_cons, Bool.false_eq_true, if_false, hany]
        exact mem_mapInsertNat _ _ _
      · intro hmem
        exact absurd (hlt _ hmem) (lt_irrefl _)

/-- Witness for `swid_assignment_spec` on the one-entry map `{1 -> fd 10}`
with a fresh connection fd 11. -/
theorem swid_assignment_spec_witness :
    ∃ k : ℕ,
      (k, (11 : ℤ)) ∈ on_features_assign [(1, 10)] 11 ∧
      (∀ j ∈ [(1, (10 : ℤ))].map (fun kv => kv.1), j < k) ∧
      k ∉ [(1, (10 : ℤ))].map (fun kv => kv.1) ∧
      ([(1, (10 : ℤ))] = [] → k = 1) ∧
      ([(1, (10 : ℤ))] ≠ [] → k = rbegin_key [(1, 10)] + 1) :=
  swid_assignment_spec [(1, 10)] 11 (by simp) (by decide)

/-! ## Theorems: topology viewer freshness (claim C6) -/

/-- Counterexample for C6: an LLDP-created edge last seen at t=0 survives
the prune at t=10 (its age equals, and does not exceed, the default 10 s
expiry), and the snapshot taken at t=10.5 — before the next periodic
prune — still returns it, although at that moment it is older than the
expiry. -/
theorem snapshot_expiry_counterexample :
    snapshot_edges (prune_expired 10 default_expiry
        (handle_lldp (fun s => s) ⟨1, 2, 3, 4⟩ 0 [])) = [⟨1, 2, 3, 4, 0⟩] ∧
    default_expiry < (21 / 2 : ℚ) - 0 := by
  have h1 : handle_lldp (fun s => s) ⟨1, 2, 3, 4⟩ 0 [] = [(⟨1, 2, 3, 4⟩, 0)] := by
    norm_num [handle_lldp, edgesInsert]
  have h2 : prune_expired 10 default_expiry [(⟨1, 2, 3, 4⟩, (0 : ℚ))] =
      [(⟨1, 2, 3, 4⟩, 0)] := by
    norm_num [prune_expired, default_expiry]
  constructor
  · rw [h1, h2]
    rfl
  · norm_num [default_expiry]

/-- C6 (amended): `prune_expired` removes exactly the entries whose
`last_seen` is older than `expiry`, so any snapshot taken at the moment of
a prune contains no expired entry; between two periodic prunes, however,
`snapshot_edges` does not filter, and an entry can exceed the expiry by up
to one prune period (as the counterexample shows). -/
theorem prune_snapshot_spec (now expiry : ℚ) (edges : List (EdgeKey × ℚ)) :
    ∀ e ∈ snapshot_edges (prune_expired now expiry edges),
      now - e.last_seen ≤ expiry := by
  intro e he
  simp only [snapshot_edges, List.mem_map] at he
  obtain ⟨kv, hmem, rfl⟩ := he
  simp only [prune_expired, List.mem_filter, decide_eq_true_eq] at hmem
  exact le_of_not_lt hmem.2

/-- Witness for `prune_snapshot_spec`: a just-pruned snapshot at t=5
contains only fresh entries. -/
theorem prune_snapshot_spec_witness :
    (5 : ℚ) - (⟨1, 2, 3, 4, (0 : ℚ)⟩ : TopoEdge).last_seen ≤ 10 :=
  prune_snapshot_spec 5 10 [(⟨1, 2, 3, 4⟩, 0)] ⟨1, 2, 3, 4, 0⟩ (by
    have h2 : prune_expired 5 10 [(⟨1, 2, 3, 4⟩, (0 : ℚ))] = [(⟨1, 2, 3, 4⟩, 0)] := by
      norm_num [prune_expired]
    rw [h2]
    exact List.mem_singleton.mpr rfl)

/-! ## Theorems: MILP solve status and failure signal (claim C1) -/

/-- Counterexample for C1: when the solver finishes with `status() == 0`
but does not prove optimality (here: proven infeasible, no primal
solution), `solve` still sets `optimal = true` — refuting both the
"optimal iff proven optimal" direction and the "no primal solution implies
optimal = false" part. (The failure signal itself, returning false, does
hold.) -/
theorem milp_optimal_counterexample :
    (solve_post ⟨[], [], []⟩ [] [] [] ⟨0, false, true, 0, none⟩ emptyOut).2.optimal = true ∧
    (SolverResult.mk 0 false true 0 none).provenOptimal = false ∧
    (solve_post ⟨[], [], []⟩ [] [] [] ⟨0, false, true, 0, none⟩ emptyOut).1 = false := by
  exact ⟨rfl, rfl, rfl⟩

/-- C1 (amended): `solve` sets `optimal = true` iff the solver status is 0
(search finished) or the solver proves optimality, and records the status
text accordingly; when the solver returns no primal solution, `solve`
returns false — the failure signal — and leaves the plan fields
(`chosen_path`, `beta`, `load_mbps`) untouched, with `optimal` still given
by that formula rather than being forced to false; with a primal solution
it returns true. -/
theorem milp_solve_post_spec (G : GraphCaps) (P : List TePath) (F : List TeFlow)
    (links : List LinkId) (res : SolverResult) (out0 : TE_Output) :
    ((solve_post G P F links res out0).2.optimal
        = ((res.status == 0) || res.provenOptimal)) ∧
    ((solve_post G P F links res out0).2.status_text =
        (if (res.status == 0) || res.provenOptimal then "optimal"
         else if res.provenInfeasible then "infeasible" else "feasible")) ∧
    (res.bestSolution = none →
      (solve_post G P F links res out0).1 = false ∧
      (solve_post G P F links res out0).2.chosen_path = out0.chosen_path ∧
      (solve_post G P F links res out0).2.beta = out0.beta ∧
      (solve_post G P F links res out0).2.load_mbps = out0.load_mbps) ∧
    (∀ sol, res.bestSolution = some sol → (solve_post G P F links res out0).1 = true) := by
  rcases res with ⟨st, po, pi, ov, bs⟩
  cases bs with
  | none =>
      exact ⟨rfl, rfl, fun _ => ⟨rfl, rfl, rfl, rfl⟩, fun sol h => by simp at h⟩
  | some sol =>
      exact ⟨rfl, rfl, fun h => by simp at h, fun s _ => rfl⟩

/-- Witness for `milp_solve_post_spec`: a concrete solver outcome with no
primal solution makes `solve` return false without touching the plan. -/
theorem milp_solve_post_spec_witness :
    (solve_post ⟨[], [], []⟩ [] [] [] ⟨1, false, false, 0, none⟩ emptyOut).1 = false :=
  ((milp_solve_post_spec ⟨[], [], []⟩ [] [] [] ⟨1, false, false, 0, none⟩ emptyOut).2.2.1 rfl).1

/-! ## Theorems: path enumerator (claim C2) -/

/-- The emitted edge list has one edge fewer than the node sequence has
nodes. -/
theorem seqEdges_length (sq : List Int) : (seqEdges sq).length = sq.length - 1 := by
  cases sq with
  | nil => rfl
  | cons a t =>
      simp only [seqEdges, List.tail_cons, List.length_map, List.length_zip,
        List.length_cons]
      omega

/-- Unfolding of `bfs_k_paths` into the level-by-level run. -/
theorem bfs_k_paths_eq (adj : Adj) (s d : Int) (K : Int) (out0 : List TePath)
    (pid0 : Int) :
    bfs_k_paths adj s d K out0 pid0 =
      ((bfs_run adj d K 12 [⟨s, [s]⟩] ⟨out0, pid0, []⟩).out_paths,
       (bfs_run adj d K 12 [⟨s, [s]⟩] ⟨out0, pid0, []⟩).next_pid) := rfl

/-- Unfolding of `idsFrom` at a successor count. -/
theorem idsFrom_succ (pid0 : Int) (n : ℕ) :
    idsFrom pid0 (n + 1) = idsFrom pid0 n ++ [pid0 + (n : Int)] := by
  simp [idsFrom, List.range_succ]

/-- One BFS step preserves the state invariant and pushes only entries of
the next level. -/
theorem bfs_step_inv (adj : Adj) (d : Int) (K : Int) (acc : List TePath)
    (pid0 : Int) (l : ℕ) (hl : 1 ≤ l) (st : BfsSt) (nxt : List BfsEntry)
    (cur : BfsEntry) (hst : stInv acc pid0 K l st)
    (hnxt : ∀ e ∈ nxt, entryInv (l + 1) e) (hcur : entryInv l cur) :
    stInv acc pid0 K l (bfs_step adj d K (st, nxt) cur).1 ∧
    (∀ e ∈ (bfs_step adj d K (st, nxt) cur).2, entryInv (l + 1) e) := by
  dsimp only [bfs_step]
  split
  · exact ⟨hst, hnxt⟩
  · rename_i hK
    split
    · exact ⟨hst, hnxt⟩
    · rename_i hdepth
      split
      · split
        · exact ⟨hst, hnxt⟩
        · refine ⟨?_, hnxt⟩
          obtain ⟨em, h1, h2, h3, h4, h5, h6, h7⟩ := hst
          have hxlen : (seqEdges cur.seq).length + 1 = l := by
            rw [seqEdges_length, hcur.1]
            omega
          refine ⟨em ++ [⟨st.next_pid, seqEdges cur.seq⟩], ?_, ?_, ?_, ?_, ?_, ?_, ?_⟩
          · dsimp only
            rw [h1, List.append_assoc]
          · dsimp only
            have hlt : (st.out_paths.length : Int) < K := lt_of_not_le hK
            have hle : ((st.out_paths ++ [(⟨st.next_pid, seqEdges cur.seq⟩ : TePath)]).length : Int) ≤ K := by
              simp only [List.length_append, List.length_cons, List.length_nil]
              push_cast
              omega
            exact le_trans hle (le_max_right _ _)
          · dsimp only
            simp only [List.length_append, List.length_cons, List.length_nil]
            push_cast
            omega
          · dsimp only
            have hlen : (em ++ [(⟨st.next_pid, seqEdges cur.seq⟩ : TePath)]).length
                = em.length + 1 := by simp
            rw [List.map_append, h4, hlen, idsFrom_succ, h3]
            simp
          · dsimp only
            intro p hp
            rw [List.mem_append] at hp
            rcases hp with hp | hp
            · exact h5 p hp
            · rw [List.mem_singleton] at hp
              subst hp
              exact ⟨cur.seq, hcur.2, rfl⟩
          · dsimp only
            rw [List.map_append]
            refine List.pairwise_append.mpr ⟨h6, by simp, ?_⟩
            intro a ha b hb
            simp only [List.map_cons, List.map_nil, List.mem_singleton] at hb
            subst hb
            have := h7 a ha
            omega
          · dsimp only
            intro n hn
            rw [List.map_append, List.mem_append] at hn
            rcases hn with hn | hn
            · exact le_trans (h7 n hn) (le_refl l)
            · simp only [List.map_cons, List.map_nil, List.mem_singleton] at hn
              subst hn
              omega
      · split
        · exact ⟨hst, hnxt⟩
        · rename_i nbs hfind
          refine ⟨hst, ?_⟩
          intro e he
          rw [List.mem_append] at he
          rcases he with he | he
          · exact hnxt e he
          · rw [List.mem_filterMap] at he
            obtain ⟨nb, hnb, hee⟩ := he
            by_cases hmem : nb ∈ cur.seq
            · simp [hmem] at hee
            · simp only [hmem, if_false] at hee
              cases hee
              constructor
              · simp [hcur.1]
              · simp only [List.nodup_append, List.nodup_singleton, true_and]
                refine ⟨hcur.2, ?_⟩
                simp [List.disjoint_singleton, hmem]

/-- Folding BFS steps over a level preserves the state invariant and
produces only next-level entries. -/
theorem bfs_foldl_inv (adj : Adj) (d : Int) (K : Int) (acc : List TePath)
    (pid0 : Int) (l : ℕ) (hl : 1 ≤ l) :
    ∀ (level : List BfsEntry) (st : BfsSt) (nxt : List BfsEntry),
      stInv acc pid0 K l st → (∀ e ∈ nxt, entryInv (l + 1) e) →
      (∀ e ∈ level, entryInv l e) →
      stInv acc pid0 K l (level.foldl (bfs_step adj d K) (st, nxt)).1 ∧
      (∀ e ∈ (level.foldl (bfs_step adj d K) (st, nxt)).2, entryInv (l + 1) e) := by
  intro level
  induction level with
  | nil => intro st nxt h1 h2 _; exact ⟨h1, h2⟩
  | cons c rest ih =>
      intro st nxt h1 h2 h3
      rw [List.foldl_cons]
      have hstep := bfs_step_inv adj d K acc pid0 l hl st nxt c h1 h2 (h3 c (by simp))
      exact ih (bfs_step adj d K (st, nxt) c).1 (bfs_step adj d K (st, nxt) c).2
        hstep.1 hstep.2 (fun e he => h3 e (by simp [he]))

/-- The state invariant is monotone in the level bound. -/
theorem stInv_mono (acc : List TePath) (pid0 K : Int) {l l' : ℕ} (h : l ≤ l')
    (st : BfsSt) : stInv acc pid0 K l st → stInv acc pid0 K l' st := by
  rintro ⟨em, h1, h2, h3, h4, h5, h6, h7⟩
  exact ⟨em, h1, h2, h3, h4, h5, h6, fun n hn => le_trans (h7 n hn) h⟩

/-- Running the level-by-level BFS preserves the state invariant. -/
theorem bfs_run_inv (adj : Adj) (d : Int) (K : Int) (acc : List TePath)
    (pid0 : Int) :
    ∀ (fuel l : ℕ) (level : List BfsEntry) (st : BfsSt),
      1 ≤ l → stInv acc pid0 K l st → (∀ e ∈ level, entryInv l e) →
      ∃ l', stInv acc pid0 K l' (bfs_run adj d K fuel level st) := by
  intro fuel
  induction fuel with
  | zero => intro l level st _ hst _; exact ⟨l, hst⟩
  | succ n ih =>
      intro l level st hl hst hlev
      dsimp only [bfs_run, bfs_level]
      have h := bfs_foldl_inv adj d K acc pid0 l hl level st [] hst (by simp) hlev
      exact ih (l + 1) _ _ (by omega)
        (stInv_mono acc pid0 K (by omega) _ h.1) h.2

/-- Properties of one `bfs_k_paths_` call relative to the shared
accumulator: the accumulator is extended in place, the total path count
stays bounded by `max |acc| K` (the global stop), the path-id counter
advances by the number of emitted paths, the emitted ids are consecutive
from `pid0`, every emitted path comes from a duplicate-free node sequence,
and the emitted hop counts are nondecreasing (BFS order, shorter paths
first). -/
theorem bfs_k_paths_props (adj : Adj) (s d : Int) (K : Int)
    (out0 : List TePath) (pid0 : Int) :
    ∃ em : List TePath,
      (bfs_k_paths adj s d K out0 pid0).1 = out0 ++ em ∧
      (((bfs_k_paths adj s d K out0 pid0).1.length : Int) ≤ max (out0.length : Int) K) ∧
      (bfs_k_paths adj s d K out0 pid0).2 = pid0 + em.length ∧
      em.map (fun p => p.id) = idsFrom pid0 em.length ∧
      (∀ p ∈ em, ∃ sq : List Int, sq.Nodup ∧ p.edges = seqEdges sq) ∧
      (em.map (fun p => p.edges.length)).Sorted (· ≤ ·) := by
  have hinit : stInv out0 pid0 K 1 ⟨out0, pid0, []⟩ := by
    refine ⟨[], by simp, ?_, by simp, by simp [idsFrom], by simp, by simp, by simp⟩
    exact le_max_left _ _
  have hlev : ∀ e ∈ [BfsEntry.mk s [s]], entryInv 1 e := by
    intro e he
    simp only [List.mem_singleton] at he
    subst he
    exact ⟨rfl, List.nodup_singleton s⟩
  obtain ⟨l', hst⟩ :=
    bfs_run_inv adj d K out0 pid0 12 1 [⟨s, [s]⟩] ⟨out0, pid0, []⟩ (by omega) hinit hlev
  obtain ⟨em, h1, h2, h3, h4, h5, h6, _⟩ := hst
  simp only [bfs_k_paths_eq]
  exact ⟨em, h1, h2, h3, h4, h5, h6⟩

/-- Running the BFS on an empty level leaves the state unchanged. -/
theorem bfs_run_nil (adj : Adj) (d K : Int) :
    ∀ (fuel : ℕ) (st : BfsSt), bfs_run adj d K fuel [] st = st := by
  intro fuel
  induction fuel with
  | zero => intro st; rfl
  | succ n ih =>
      intro st
      dsimp only [bfs_run, bfs_level, List.foldl]
      exact ih st

/-- An entry beyond the depth cap is dropped without any effect. -/
theorem bfs_step_deep (adj : Adj) (d K : Int) (st : BfsSt)
    (nxt : List BfsEntry) (cur : BfsEntry) (h : 10 < cur.seq.length) :
    bfs_step adj d K (st, nxt) cur = (st, nxt) := by
  by_cases hK : K ≤ (st.out_paths.length : Int)
  · dsimp only [bfs_step]
    rw [if_pos hK]
  · dsimp only [bfs_step]
    rw [if_neg hK, if_pos h]

/-- A level made only of entries beyond the depth cap is a no-op and
produces an empty next level. -/
theorem bfs_level_deep (adj : Adj) (d K : Int) :
    ∀ (level : List BfsEntry) (st : BfsSt),
      (∀ e ∈ level, 10 < e.seq.length) → bfs_level adj d K level st = (st, []) := by
  intro level
  induction level with
  | nil => intro st _; rfl
  | cons c rest ih =>
      intro st h
      show (c :: rest).foldl (bfs_step adj d K) (st, []) = (st, [])
      rw [List.foldl_cons, bfs_step_deep adj d K st [] c (h c (by simp))]
      exact ih st (fun e he => h e (by simp [he]))

/-- Past the depth cap the whole run is a no-op, for any fuel. -/
theorem bfs_run_deep (adj : Adj) (d K : Int) :
    ∀ (fuel : ℕ) (level : List BfsEntry) (st : BfsSt),
      (∀ e ∈ level, 10 < e.seq.length) → bfs_run adj d K fuel level st = st := by
  intro fuel
  cases fuel with
  | zero => intro level st _; rfl
  | succ n =>
      intro level st h
      dsimp only [bfs_run]
      rw [bfs_level_deep adj d K level st h]
      exact bfs_run_nil adj d K n st

/-- A step at level `l` pushes only entries of length `l + 1`. -/
theorem bfs_step_next_len (adj : Adj) (d K : Int) (l : ℕ) (st : BfsSt)
    (nxt : List BfsEntry) (cur : BfsEntry) (hc : cur.seq.length = l)
    (hn : ∀ e ∈ nxt, e.seq.length = l + 1) :
    ∀ e ∈ (bfs_step adj d K (st, nxt) cur).2, e.seq.length = l + 1 := by
  dsimp only [bfs_step]
  split
  · exact hn
  · split
    · exact hn
    · split
      · split
        · exact hn
        · exact hn
      · split
        · exact hn
        · intro e he
          rw [List.mem_append] at he
          rcases he with he | he
          · exact hn e he
          · rw [List.mem_filterMap] at he
            obtain ⟨nb, _, hee⟩ := he
            by_cases hmem : nb ∈ cur.seq
            · simp [hmem] at hee
            · simp only [hmem, if_false] at hee
              cases hee
              simp [hc]

/-- Folding a level of length-`l` entries produces a next level of
length-`l + 1` entries. -/
theorem bfs_foldl_next_len (adj : Adj) (d K : Int) (l : ℕ) :
    ∀ (level : List BfsEntry) (st : BfsSt) (nxt : List BfsEntry),
      (∀ e ∈ level, e.seq.length = l) → (∀ e ∈ nxt, e.seq.length = l + 1) →
      ∀ e ∈ (level.foldl (bfs_step adj d K) (st, nxt)).2, e.seq.length = l + 1 := by
  intro level
  induction level with
  | nil => intro st nxt _ hn; exact hn
  | cons c rest ih =>
      intro st nxt hlev hn
      rw [List.foldl_cons]
      exact ih (bfs_step adj d K (st, nxt) c).1 (bfs_step adj d K (st, nxt) c).2
        (fun e he => hlev e (by simp [he]))
        (bfs_step_next_len adj d K l st nxt c (hlev c (by simp)) hn)

/-- The fuel bound of `bfs_k_paths` is exact: starting from a level whose
entries all have node sequences of length `l`, any two fuels of at least
`12 - l` compute the same state — in particular, from the initial level
(`l = 1`) every fuel of at least 11 agrees with the fuel 12 used in the
definition, so the embedding computes the fixpoint of the C++ while
loop. -/
theorem bfs_run_fuel_irrelevant (adj : Adj) (d K : Int) :
    ∀ (f1 f2 l : ℕ) (level : List BfsEntry) (st : BfsSt),
      (∀ e ∈ level, e.seq.length = l) → 12 ≤ l + f1 → 12 ≤ l + f2 →
      bfs_run adj d K f1 level st = bfs_run adj d K f2 level st := by
  intro f1
  induction f1 with
  | zero =>
      intro f2 l level st hl h1 h2
      have hdeep : ∀ e ∈ level, 10 < e.seq.length := by
        intro e he
        rw [hl e he]
        omega
      rw [bfs_run_deep adj d K f2 level st hdeep]
      rfl
  | succ n ih =>
      intro f2 l level st hl h1 h2
      cases f2 with
      | zero =>
          have hdeep : ∀ e ∈ level, 10 < e.seq.length := by
            intro e he
            rw [hl e he]
            omega
          rw [bfs_run_deep adj d K (n + 1) level st hdeep]
          rfl
      | succ m =>
          dsimp only [bfs_run]
          exact ih m (l + 1) _ _
            (bfs_foldl_next_len adj d K l level st [] hl (by simp))
            (by omega) (by omega)

/-- Consecutive id blocks compose. -/
theorem idsFrom_append (pid0 : Int) (n m : ℕ) :
    idsFrom pid0 (n + m) = idsFrom pid0 n ++ idsFrom (pid0 + (n : Int)) m := by
  induction m with
  | zero => simp [idsFrom]
  | succ k ih =>
      have h1 : n + (k + 1) = (n + k) + 1 := by omega
      have h2 : pid0 + ((n + k : ℕ) : Int) = pid0 + (n : Int) + (k : Int) := by
        push_cast
        ring
      rw [h1, idsFrom_succ, idsFrom_succ, ih, List.append_assoc, h2]

/-- Invariant of the fold of `build_paths_` over the required pairs:
at most `K` paths in total, ids consecutive from 100, every path from a
duplicate-free node sequence. -/
theorem build_fold_inv (adj : Adj) (K : Int) :
    ∀ (pairs : List (Int × Int)) (a : List TePath × Int),
      ((a.1.length : Int) ≤ K) →
      (a.2 = 100 + (a.1.length : Int)) →
      (a.1.map (fun p => p.id) = idsFrom 100 a.1.length) →
      (∀ p ∈ a.1, ∃ sq : List Int, sq.Nodup ∧ p.edges = seqEdges sq) →
      (((pairs.foldl (fun a sd => bfs_k_paths adj sd.1 sd.2 K a.1 a.2) a).1.length : Int) ≤ K) ∧
      ((pairs.foldl (fun a sd => bfs_k_paths adj sd.1 sd.2 K a.1 a.2) a).1.map (fun p => p.id)
          = idsFrom 100 (pairs.foldl (fun a sd => bfs_k_paths adj sd.1 sd.2 K a.1 a.2) a).1.length) ∧
      (∀ p ∈ (pairs.foldl (fun a sd => bfs_k_paths adj sd.1 sd.2 K a.1 a.2) a).1,
          ∃ sq : List Int, sq.Nodup ∧ p.edges = seqEdges sq) := by
  intro pairs
  induction pairs with
  | nil => intro a h1 h2 h3 h4; exact ⟨h1, h3, h4⟩
  | cons sd rest ih =>
      intro a h1 h2 h3 h4
      rw [List.foldl_cons]
      obtain ⟨em, e1, e2, e3, e4, e5, _⟩ := bfs_k_paths_props adj sd.1 sd.2 K a.1 a.2
      have hmax : max (a.1.length : Int) K = K := max_eq_right h1
      have hlen' : (((bfs_k_paths adj sd.1 sd.2 K a.1 a.2).1.length : Int) ≤ K) :=
        le_trans e2 (le_of_eq hmax)
      have hpid' : (bfs_k_paths adj sd.1 sd.2 K a.1 a.2).2
          = 100 + ((bfs_k_paths adj sd.1 sd.2 K a.1 a.2).1.length : Int) := by
        rw [e3, e1, h2]
        push_cast [List.length_append]
        omega
      have hids' : (bfs_k_paths adj sd.1 sd.2 K a.1 a.2).1.map (fun p => p.id)
          = idsFrom 100 (bfs_k_paths adj sd.1 sd.2 K a.1 a.2).1.length := by
        rw [e1, List.map_append, h3, e4, h2, List.length_append, idsFrom_append]
      have hsimp' : ∀ p ∈ (bfs_k_paths adj sd.1 sd.2 K a.1 a.2).1,
          ∃ sq : List Int, sq.Nodup ∧ p.edges = seqEdges sq := by
        intro p hp
        rw [e1, List.mem_append] at hp
        rcases hp with hp | hp
        · exact h4 p hp
        · exact e5 p hp
      exact ih (bfs_k_paths adj sd.1 sd.2 K a.1 a.2) hlen' hpid' hids' hsimp'

/-- Counterexample for C2: with the chain 1–2–3 alive, flows requiring
the pairs (1,2) and (2,3), and `K = 1`, `build_paths_` emits the single
path for (1,2) and then nothing at all for (2,3) — the `K` stop counts
paths globally across pairs, not per pair — even though a fresh BFS for
(2,3) on the same adjacency (second conjunct) does find its one-hop
path. -/
theorem per_pair_k_counterexample :
    build_paths [(1, 2), (2, 3)] [⟨1, 1, 2, 1, []⟩, ⟨2, 2, 3, 1, []⟩] 1
      = [⟨100, [⟨1, 2⟩]⟩] ∧
    (bfs_k_paths (build_adj [(1, 2), (2, 3)]) 2 3 1 [] 100).1
      = [⟨100, [⟨2, 3⟩]⟩] :=
  ⟨rfl, rfl⟩

/-- C2 (amended): for every nonnegative `K` the enumerator emits at most
`K` candidate paths in total across all (src,dst) pairs (the stop counts
globally, so later pairs may be starved, as the counterexample shows);
each emitted path gets a globally unique id, the ids being consecutive
from 100; every emitted path is simple (it arises from a duplicate-free
node sequence); and within each `bfs_k_paths_` call the paths are emitted
in BFS order, shorter paths first (nondecreasing hop counts). -/
theorem path_enumerator_spec :
    (∀ (alive : List (Int × Int)) (flows : List TeFlow) (K : Int), 0 ≤ K →
      (((build_paths alive flows K).length : Int) ≤ K ∧
       (build_paths alive flows K).map (fun p => p.id)
         = idsFrom 100 (build_paths alive flows K).length ∧
       ∀ p ∈ build_paths alive flows K,
         ∃ sq : List Int, sq.Nodup ∧ p.edges = seqEdges sq)) ∧
    (∀ (adj : Adj) (s d K : Int) (acc : List TePath) (pid : Int),
      ∃ em : List TePath,
        (bfs_k_paths adj s d K acc pid).1 = acc ++ em ∧
        (em.map (fun p => p.edges.length)).Sorted (· ≤ ·)) := by
  constructor
  · intro alive flows K hK
    have h := build_fold_inv (build_adj alive) K (need_pairs flows)
      (([] : List TePath), (100 : Int))
      (by simpa using hK) (by simp) (by simp [idsFrom]) (by simp)
    simp only [build_paths]
    exact ⟨h.1, h.2.1, h.2.2⟩
  · intro adj s d K acc pid
    obtain ⟨em, e1, _, _, _, _, e6⟩ := bfs_k_paths_props adj s d K acc pid
    exact ⟨em, e1, e6⟩

/-- Witness for `path_enumerator_spec` on a one-edge topology with
`K = 5`. -/
theorem path_enumerator_spec_witness :
    ((build_paths [(1, 2)] [⟨1, 1, 2, 1, []⟩] 5).length : Int) ≤ 5 :=
  (path_enumerator_spec.1 [(1, 2)] [⟨1, 1, 2, 1, []⟩] 5 (by norm_num)).1

end OpenFlowSpec
